import Mathlib

/-!
Verification development for the e-book conversion core
(`src/core/text_converter.py`, `src/core/pdf_processor.py`,
`src/core/markdown_generator.py`, `src/core/epub_processor.py`).

Python strings are modelled as Lean `String`/`List Char`; Python dicts with
optional keys are modelled as structures with `Option` fields; external
collaborators (OpenCC, PyPDF2/pdfplumber, ebooklib, the file system) are
modelled as explicit function parameters, and exceptions raised by them as
`Option` results.  `re.findall`/`re.sub`/`re.match` on the concrete patterns
appearing in the source are modelled by direct left-to-right scanning
functions with the same leftmost, non-overlapping match semantics (each
character class involved excludes the character that terminates it, so greedy
matching needs no backtracking).
-/

namespace Ebook

/-! ### Generic left-to-right substitution scan

`re.sub`-style scanning: at every position try the matcher `m`; on a match
`some (out, tail)` emit `out` and resume at `tail` (the input just after the
match), otherwise copy one character.  Implemented with explicit fuel so that
it is structurally recursive (and hence computable by `decide`); `scanM` runs
it with fuel `cs.length`, which is always enough when matches consume at
least one character. -/

def scanF (m : List Char → Option (List Char × List Char)) :
    Nat → List Char → List Char
  | 0, _ => []
  | _ + 1, [] => []
  | f + 1, c :: rest =>
    match m (c :: rest) with
    | some (out, tail) => out ++ scanF m f tail
    | none => c :: scanF m f rest

def scanM (m : List Char → Option (List Char × List Char))
    (cs : List Char) : List Char :=
  scanF m cs.length cs

/-- A matcher is consuming when every match leaves a strictly shorter rest. -/
def Consuming (m : List Char → Option (List Char × List Char)) : Prop :=
  ∀ cs out tail, m cs = some (out, tail) → tail.length < cs.length

theorem scanF_irrel {m : List Char → Option (List Char × List Char)}
    (hm : Consuming m) :
    ∀ f₁ f₂ cs, cs.length ≤ f₁ → cs.length ≤ f₂ →
      scanF m f₁ cs = scanF m f₂ cs := by
  intro f₁
  induction f₁ with
  | zero =>
    intro f₂ cs h1 _
    have hcs : cs = [] := by
      cases cs with
      | nil => rfl
      | cons c rest => simp at h1
    subst hcs
    cases f₂ <;> rfl
  | succ f ih =>
    intro f₂ cs h1 h2
    cases cs with
    | nil => cases f₂ <;> rfl
    | cons c rest =>
      cases f₂ with
      | zero => simp at h2
      | succ f₂' =>
        simp only [scanF]
        cases hmc : m (c :: rest) with
        | some pr =>
          obtain ⟨out, tail⟩ := pr
          have hlen := hm _ _ _ hmc
          simp only [List.length_cons] at hlen h1 h2
          dsimp only
          rw [ih f₂' tail (by omega) (by omega)]
        | none =>
          simp only [List.length_cons] at h1 h2
          dsimp only
          rw [ih f₂' rest (by omega) (by omega)]

theorem scanM_nil (m : List Char → Option (List Char × List Char)) :
    scanM m [] = [] := rfl

theorem scanM_cons {m : List Char → Option (List Char × List Char)}
    (hm : Consuming m) (c : Char) (rest : List Char) :
    scanM m (c :: rest) =
      match m (c :: rest) with
      | some (out, tail) => out ++ scanM m tail
      | none => c :: scanM m rest := by
  show scanF m (rest.length + 1) (c :: rest) = _
  simp only [scanF]
  cases hmc : m (c :: rest) with
  | some pr =>
    obtain ⟨out, tail⟩ := pr
    have hlen := hm _ _ _ hmc
    simp only [List.length_cons] at hlen
    simp only [scanM]
    rw [scanF_irrel hm rest.length tail.length tail (by omega) (le_refl _)]
  | none => rfl

/-- If no match starts anywhere inside `a` (even looking ahead into `X`),
the scan copies `a` verbatim. -/
theorem scanM_copy {m : List Char → Option (List Char × List Char)}
    (hm : Consuming m) :
    ∀ (a X : List Char), (∀ j, j < a.length → m (a.drop j ++ X) = none) →
      scanM m (a ++ X) = a ++ scanM m X := by
  intro a
  induction a with
  | nil => intro X _; simp
  | cons c a' ih =>
    intro X h
    have h0 := h 0 (by simp)
    simp only [List.drop_zero, List.cons_append] at h0
    rw [List.cons_append, scanM_cons hm, h0]
    dsimp only
    rw [ih X (fun j hj => h (j + 1) (by simpa using Nat.succ_lt_succ hj))]
    simp

/-- If no match starts anywhere, the scan is the identity. -/
theorem scanM_id_of_none {m : List Char → Option (List Char × List Char)}
    (hm : Consuming m) :
    ∀ cs : List Char, (∀ n, m (cs.drop n) = none) → scanM m cs = cs := by
  intro cs
  induction cs with
  | nil => intro _; rfl
  | cons c rest ih =>
    intro h
    have h0 := h 0
    simp only [List.drop_zero] at h0
    rw [scanM_cons hm, h0, ih (fun n => by simpa using h (n + 1))]

/-- Either the scan is the identity, or the input splits at the first match. -/
theorem scanM_decomp {m : List Char → Option (List Char × List Char)}
    (hm : Consuming m) :
    ∀ cs : List Char, scanM m cs = cs ∨
      ∃ p rest out tail, cs = p ++ rest ∧ m rest = some (out, tail) ∧
        scanM m cs = p ++ out ++ scanM m tail := by
  intro cs
  induction cs with
  | nil => left; rfl
  | cons c rest ih =>
    rw [scanM_cons hm]
    cases hmc : m (c :: rest) with
    | some pr =>
      obtain ⟨out, tail⟩ := pr
      right
      exact ⟨[], c :: rest, out, tail, by simp, hmc, by simp⟩
    | none =>
      rcases ih with h | ⟨p, r₂, out, tail, he, hm₂, hs⟩
      · left; rw [h]
      · right
        exact ⟨c :: p, r₂, out, tail, by simp [he], hm₂, by simp [hs]⟩

theorem length_dropWhile_le (p : Char → Bool) :
    ∀ l : List Char, (l.dropWhile p).length ≤ l.length := by
  intro l
  induction l with
  | nil => simp [List.dropWhile]
  | cons c rest ih =>
    simp only [List.dropWhile]
    cases p c
    · simp
    · simp
      omega

/-! ### TextConverter (src/core/text_converter.py) -/

/-- The fixed set of high-frequency Simplified-only characters from
`TextConverter.is_simplified_chinese` (lines 56-67 of the source). -/
def simplifiedChars : List Char :=
  ['国', '发', '会', '说', '来', '对', '开', '关', '门', '问',
   '间', '时', '实', '现', '学', '业', '产', '经', '济', '社',
   '党', '政', '府', '军', '民', '众', '团', '体', '织', '组',
   '级', '别', '类', '种', '样', '式', '法', '规', '则', '制',
   '度', '系', '统', '结', '构', '建', '设', '计', '划', '案',
   '项', '目', '标', '准', '确', '定', '决', '议', '论', '证',
   '明', '显', '示', '表', '达', '述', '讲', '话', '言', '语',
   '词', '汇', '字', '符', '号', '码', '数', '量', '额', '价',
   '值', '费', '用', '成', '本', '利', '益', '效', '果', '应',
   '该', '须', '要', '需', '求', '供', '给', '提', '供', '献']

/-- `TextConverter.is_simplified_chinese` (lines 42-74): empty text is not
simplified; otherwise report whether any character of the fixed set occurs. -/
def is_simplified_chinese (text : String) : Bool :=
  if text = "" then false
  else simplifiedChars.any (fun c => text.data.contains c)

/-- One step of `re.findall(r'>([^<]+)<', html)`: if the scan position starts
with `>`, capture the (greedy, hence maximal) run of non-`<` characters and
require that it is non-empty and followed by `<`; the returned rest is the
input just after the consumed `<`.  (The head of the `dropWhile` result is
necessarily `<`, being the first character failing `x != '<'`.) -/
def matchTextNode : List Char → Option (List Char × List Char)
  | [] => none
  | c :: rest =>
    if c = '>' then
      let cap := rest.takeWhile (fun x => x != '<')
      match rest.dropWhile (fun x => x != '<') with
      | _ :: tail => if cap.isEmpty then none else some (cap, tail)
      | [] => none
    else none

theorem matchTextNode_consuming : Consuming matchTextNode := by
  intro cs out tail h
  match cs with
  | [] => simp [matchTextNode] at h
  | c :: rest =>
    simp only [matchTextNode] at h
    by_cases hc : c = '>'
    · rw [if_pos hc] at h
      cases hd : rest.dropWhile (fun x => x != '<') with
      | nil => rw [hd] at h; cases h
      | cons d t =>
        rw [hd] at h
        by_cases hcap : (rest.takeWhile (fun x => x != '<')).isEmpty
        · simp [hcap] at h
        · simp only [hcap, if_false, Bool.false_eq_true] at h
          have hlen := length_dropWhile_le (fun x => x != '<') rest
          rw [hd] at hlen
          cases h
          simp only [List.length_cons] at hlen ⊢
          omega
    · rw [if_neg hc] at h; cases h

/-- Fuel-driven version of the `findall` capture list. -/
def ftnF : Nat → List Char → List (List Char)
  | 0, _ => []
  | _ + 1, [] => []
  | f + 1, c :: rest =>
    match matchTextNode (c :: rest) with
    | some (cap, tail) => cap :: ftnF f tail
    | none => ftnF f rest

/-- The list of captures of `re.findall(r'>([^<]+)<', html)` (line 137-138 of
the source): left-to-right scan, at a match emit the capture and resume after
the consumed closing `<`, otherwise advance one character. -/
def findTextNodes (cs : List Char) : List (List Char) :=
  ftnF cs.length cs

theorem ftnF_irrel :
    ∀ f₁ f₂ cs, cs.length ≤ f₁ → cs.length ≤ f₂ → ftnF f₁ cs = ftnF f₂ cs := by
  intro f₁
  induction f₁ with
  | zero =>
    intro f₂ cs h1 _
    have hcs : cs = [] := by
      cases cs with
      | nil => rfl
      | cons c rest => simp at h1
    subst hcs
    cases f₂ <;> rfl
  | succ f ih =>
    intro f₂ cs h1 h2
    cases cs with
    | nil => cases f₂ <;> rfl
    | cons c rest =>
      cases f₂ with
      | zero => simp at h2
      | succ f₂' =>
        simp only [ftnF]
        cases hmc : matchTextNode (c :: rest) with
        | some pr =>
          obtain ⟨cap, tail⟩ := pr
          have hlen := matchTextNode_consuming _ _ _ hmc
          simp only [List.length_cons] at hlen h1 h2
          dsimp only
          rw [ih f₂' tail (by omega) (by omega)]
        | none =>
          simp only [List.length_cons] at h1 h2
          dsimp only
          rw [ih f₂' rest (by omega) (by omega)]

theorem findTextNodes_cons (c : Char) (rest : List Char) :
    findTextNodes (c :: rest) =
      match matchTextNode (c :: rest) with
      | some (cap, tail) => cap :: findTextNodes tail
      | none => findTextNodes rest := by
  show ftnF (rest.length + 1) (c :: rest) = _
  simp only [ftnF]
  cases hmc : matchTextNode (c :: rest) with
  | some pr =>
    obtain ⟨cap, tail⟩ := pr
    have hlen := matchTextNode_consuming _ _ _ hmc
    simp only [List.length_cons] at hlen
    dsimp only [findTextNodes]
    rw [ftnF_irrel rest.length tail.length tail (by omega) (le_refl _)]
  | none => rfl

/-- The matcher for `maskTextNodes`: same matches as `matchTextNode`, but the
emitted text keeps only the `>`/`<` delimiters and drops the capture. -/
def maskMatcher (cs : List Char) : Option (List Char × List Char) :=
  (matchTextNode cs).map (fun pr => (['>', '<'], pr.2))

theorem maskMatcher_consuming : Consuming maskMatcher := by
  intro cs out tail h
  simp only [maskMatcher, Option.map_eq_some'] at h
  obtain ⟨⟨cap, t⟩, hmt, heq⟩ := h
  cases heq
  exact matchTextNode_consuming _ _ _ hmt

/-- The markup with the content of every matched text node deleted:
everything a structured text-node-only rewrite must leave unchanged. -/
def maskTextNodes (cs : List Char) : List Char :=
  scanM maskMatcher cs

/-- `TextConverter.convert_html_content` (lines 123-151).  The OpenCC
converter (`self.converter`) is an external collaborator, modelled as an
optional function `conv` (`none` = converter unavailable).  Detection
extracts the text-node captures, joins them with single spaces and runs
`is_simplified_chinese`; on a positive detection with an available converter
the whole markup string is passed to the converter. -/
def convert_html_content (conv : Option (String → String)) (html : String) :
    String × Bool :=
  if html = "" then (html, false)
  else
    let caps := findTextNodes html.data
    let combined := String.mk (List.intercalate [' '] caps)
    if is_simplified_chinese combined then
      match conv with
      | some f => (f html, true)
      | none => (html, false)
    else (html, false)

/-! ### Conversion statistics (src/core/text_converter.py, lines 153-179) -/

/-- The dict returned by `get_conversion_stats`. -/
structure ConversionStats where
  total_chars : Nat
  changed_chars : Nat
  change_rate : ℚ
  deriving DecidableEq, Repr

/-- Count of differing positions of `zip(original, converted)` (line 172). -/
def countDiff : List Char → List Char → Nat
  | a :: as, b :: bs => (if a ≠ b then 1 else 0) + countDiff as bs
  | _, _ => 0

/-- Floor of a rational, kept kernel-computable (the denominator is always
positive, so floor division of the numerator by the denominator is the
floor). -/
def ratFloor (q : ℚ) : ℤ := Int.fdiv q.num q.den

/-- Round-half-even of a rational, modelling Python `round` on the exact
value. -/
def roundHalfEven (q : ℚ) : ℤ :=
  let f := ratFloor q
  let r := q - (f : ℚ)
  if r < 1/2 then f
  else if 1/2 < r then f + 1
  else if f % 2 = 0 then f else f + 1

/-- Python `round(x, 2)` modelled exactly on rationals. -/
def pyRound2 (q : ℚ) : ℚ := (roundHalfEven (q * 100) : ℚ) / 100

/-- `TextConverter.get_conversion_stats` (lines 153-179): zero stats when
either string is empty (falsy); otherwise the total is the length of the
original, the changed count is the number of differing zipped positions, and
the rate is the rounded percentage. -/
def get_conversion_stats (original_text converted_text : String) :
    ConversionStats :=
  if original_text = "" ∨ converted_text = "" then ⟨0, 0, 0⟩
  else
    let total_chars := original_text.length
    let changed_chars := countDiff original_text.data converted_text.data
    let change_rate : ℚ :=
      if 0 < total_chars then (changed_chars : ℚ) / total_chars * 100 else 0
    ⟨total_chars, changed_chars, pyRound2 change_rate⟩

theorem countDiff_self : ∀ l : List Char, countDiff l l = 0 := by
  intro l
  induction l with
  | nil => rfl
  | cons c rest ih => simp [countDiff, ih]

theorem pyRound2_zero : pyRound2 0 = 0 := by
  norm_num [pyRound2, roundHalfEven, ratFloor]

/-- The conversion decision of `convert_html_content` is a function of the
extracted text-node captures and the converter availability only. -/
theorem convert_html_decision_eq (conv : Option (String → String))
    (html : String) :
    (convert_html_content conv html).2 =
      (conv.isSome && is_simplified_chinese
        (String.mk (List.intercalate [' '] (findTextNodes html.data)))) := by
  unfold convert_html_content
  by_cases hh : html = ""
  · subst hh
    have h2 : is_simplified_chinese
        (String.mk (List.intercalate [' '] (findTextNodes "".data))) = false := rfl
    simp [h2]
  · rw [if_neg hh]
    by_cases hs :
        is_simplified_chinese
          (String.mk (List.intercalate [' '] (findTextNodes html.data)))
    · rw [if_pos hs]
      cases conv <;> simp [hs]
    · rw [if_neg hs]
      cases conv <;> simp [hs]

/-- C1 (amended): the decision whether to convert depends only on the
text-node captures extracted from the markup (substrings matched between `>`
and `<`); but when conversion happens, the whole markup string — tag names
and attribute values included — is passed through the converter, so the
output is exactly the converter applied to the full input. -/
theorem convert_html_content_amended :
    (∀ (conv : Option (String → String)) (h₁ h₂ : String),
        findTextNodes h₁.data = findTextNodes h₂.data →
        (convert_html_content conv h₁).2 = (convert_html_content conv h₂).2) ∧
    (∀ (f : String → String) (h : String),
        (convert_html_content (some f) h).2 = true →
        (convert_html_content (some f) h).1 = f h) := by
  constructor
  · intro conv h₁ h₂ heq
    rw [convert_html_decision_eq, convert_html_decision_eq, heq]
  · intro f h hconv
    unfold convert_html_content at hconv ⊢
    by_cases hh : h = ""
    · subst hh
      rw [if_pos rfl] at hconv
      simp at hconv
    · rw [if_neg hh] at hconv ⊢
      by_cases hs :
          is_simplified_chinese
            (String.mk (List.intercalate [' '] (findTextNodes h.data)))
      · rw [if_pos hs]
      · rw [if_neg hs] at hconv
        simp at hconv

/-- The character-to-character transliteration table used in the
counterexample (a two-entry Simplified-to-Traditional map, the shape of
mapping the OpenCC collaborator applies). -/
def cexMap (c : Char) : Char :=
  if c = '发' then '發' else if c = '国' then '國' else c

/-- A converter instance: apply `cexMap` to every character of the string. -/
def cexConv (s : String) : String := String.mk (s.data.map cexMap)

/-- Markup whose only text node (`发`) triggers detection while the attribute
value `国` is also touched by the mapping. -/
def cexHtml : String := "<a title=\"国\">发</a>"

/-- C1 (counterexample): on `cexHtml` the conversion fires, and the returned
markup differs from the input even after deleting all text-node content —
the attribute value was rewritten, refuting the claim that tag names and
attribute values are identical and only text-node content may differ. -/
theorem convert_html_content_counterexample :
    (convert_html_content (some cexConv) cexHtml).2 = true ∧
    maskTextNodes (convert_html_content (some cexConv) cexHtml).1.data ≠
      maskTextNodes cexHtml.data := by
  constructor
  · decide
  · decide

/-- C1 (witness for the amended theorem): instantiate the decision part at
two different markups with the same text nodes, and the blind-conversion part
at the counterexample input. -/
theorem convert_html_content_amended_witness :
    ((convert_html_content (some cexConv) "<p>发</p>").2 =
      (convert_html_content (some cexConv) "x<p>发</p>y").2) ∧
    (convert_html_content (some cexConv) cexHtml).1 = cexConv cexHtml := by
  constructor
  · exact convert_html_content_amended.1 (some cexConv) _ _ (by decide)
  · exact convert_html_content_amended.2 cexConv cexHtml (by decide)

/-- C3: `get_conversion_stats` returns rate 0 on identical inputs, total
equals the original's length whenever the two lengths agree, and in all
cases the stored rate is the rounded percentage of the stored counts (0 when
the stored total is 0). -/
theorem get_conversion_stats_spec :
    ∀ o c : String,
      (o = c → (get_conversion_stats o c).change_rate = 0) ∧
      (o.length = c.length → (get_conversion_stats o c).total_chars = o.length) ∧
      ((get_conversion_stats o c).change_rate =
        if (get_conversion_stats o c).total_chars = 0 then 0
        else pyRound2 (((get_conversion_stats o c).changed_chars : ℚ) /
          ((get_conversion_stats o c).total_chars : ℚ) * 100)) := by
  intro o c
  unfold get_conversion_stats
  by_cases hg : o = "" ∨ c = ""
  · rw [if_pos hg]
    refine ⟨fun _ => rfl, ?_, by simp⟩
    intro hlen
    rcases hg with hg | hg
    · simp [hg]
    · subst hg
      simpa using hlen.symm
  · rw [if_neg hg]
    push_neg at hg
    obtain ⟨ho, hc⟩ := hg
    have hlen : o.length ≠ 0 := by
      intro h0
      have hdata : o.data = [] := List.length_eq_zero.mp h0
      exact ho (String.ext hdata)
    dsimp only
    refine ⟨?_, fun _ => rfl, ?_⟩
    · intro hoc
      subst hoc
      simp [countDiff_self, Nat.pos_of_ne_zero hlen, pyRound2_zero]
    · simp only [if_neg hlen, if_pos (Nat.pos_of_ne_zero hlen)]

/-- C3 (witness): concrete evaluation at equal two-character strings. -/
theorem get_conversion_stats_spec_witness :
    (get_conversion_stats "ab" "ab").change_rate = 0 ∧
    (get_conversion_stats "ab" "ab").total_chars = "ab".length := by
  exact ⟨(get_conversion_stats_spec "ab" "ab").1 rfl,
    (get_conversion_stats_spec "ab" "ab").2.1 rfl⟩

/-! ### PdfProcessor (src/core/pdf_processor.py)

Pages and paragraphs are the dicts built by the extraction functions; keys
that a given extraction path does not set (`is_title` resp. `is_chapter`)
are `Option` fields.  The PyPDF2/pdfplumber collaborators are modelled as a
map from file paths to the list of per-page extracted texts (`none` = the
library raises). -/

structure Para where
  text : String
  font_size : Nat
  is_chapter : Option Bool
  is_title : Option Bool
  deriving DecidableEq, Repr

structure PageContent where
  page_number : Nat
  paragraphs : List Para
  deriving DecidableEq, Repr

/-- Python `text.split('\n\n')` on character lists, fuel-driven (every step
consumes at least one character, so fuel `cs.length` suffices). -/
def splitNNF : Nat → List Char → List (List Char)
  | 0, cs => [cs]
  | _ + 1, [] => [[]]
  | f + 1, c :: rest =>
    match c :: rest with
    | '\n' :: '\n' :: tail => [] :: splitNNF f tail
    | _ =>
      match splitNNF f rest with
      | p :: ps => (c :: p) :: ps
      | [] => [[c]]

def splitOnNN (cs : List Char) : List (List Char) := splitNNF cs.length cs

/-- Python `str.strip()` (whitespace from both ends). -/
def trimL (cs : List Char) : List Char :=
  ((cs.dropWhile Char.isWhitespace).reverse.dropWhile Char.isWhitespace).reverse

/-- `[p.strip() for p in text.split('\n\n') if p.strip()]`. -/
def splitParas (text : String) : List String :=
  ((splitOnNN text.data).map (fun p => String.mk (trimL p))).filter
    (fun s => s ≠ "")

/-- Python `str.isupper()` restricted to the basic-Latin cased range: at
least one cased character, and no cased character is lowercase. -/
def isCased (c : Char) : Bool := c.isUpper || c.isLower

def pyIsUpper (s : String) : Bool :=
  s.data.any isCased && s.data.all (fun c => !c.isLower)

/-- Python `para.endswith('.')`. -/
def endsWithDot (s : String) : Bool := s.data.getLast? == some '.'

/-- The title heuristic of `extract_with_pdfplumber` (lines 159-160). -/
def plumberTitle (t : String) : Bool :=
  (pyIsUpper t && t.length < 100) || (t.length < 50 && !endsWithDot t)

/-- One paragraph dict built by `extract_with_pdfplumber` (lines 162-166). -/
def mkPlumberPara (t : String) : Para :=
  ⟨t, if plumberTitle t then 16 else 12, none, some (plumberTitle t)⟩

/-- `PdfProcessor.extract_with_pdfplumber` (lines 128-174): empty result if
pdfplumber is unavailable or raises on open; otherwise pages with non-empty
text contribute their stripped non-empty paragraphs with the title heuristic
applied; pages without paragraphs are dropped. -/
def extract_with_pdfplumber (available : Bool)
    (world : String → Option (List String)) (file_path : String) :
    List PageContent :=
  if !available then []
  else
    match world file_path with
    | none => []
    | some texts =>
      texts.enum.filterMap (fun pr =>
        if pr.2 = "" then none
        else
          let paras := (splitParas pr.2).map mkPlumberPara
          if paras.isEmpty then none else some ⟨pr.1 + 1, paras⟩)

/-- One paragraph dict built by `extract_text_with_structure` (lines 90-94):
font size 12 and a crude `is_chapter` flag; no `is_title` key. -/
def mkStructPara (t : String) : Para :=
  ⟨t, 12, some (t.length < 100 && pyIsUpper t), none⟩

def pypdf2Pages (doc : List String) : List PageContent :=
  doc.enum.filterMap (fun pr =>
    let paras := (splitParas pr.2).map mkStructPara
    if paras.isEmpty then none else some ⟨pr.1 + 1, paras⟩)

structure PdfProcessor where
  document : Option (List String)
  file_path : Option String
  deriving DecidableEq, Repr

/-- `PdfProcessor.extract_text_with_structure` (lines 61-105). -/
def extract_text_with_structure (pypdf2 : Bool) (self : PdfProcessor) :
    List PageContent :=
  if self.file_path = none then []
  else
    match self.document, pypdf2 with
    | some doc, true => pypdf2Pages doc
    | _, _ => []

/-- `PdfProcessor.load_pdf` (lines 33-59): fails when no PDF library is
available; with PyPDF2 available the reader is constructed (an exception
leaves the processor unchanged and returns `False`); on success the document
and path are stored. -/
def load_pdf (pypdf2 pdfplumber : Bool)
    (world : String → Option (List String)) (self : PdfProcessor)
    (file_path : String) : PdfProcessor × Bool :=
  if !(pypdf2 || pdfplumber) then (self, false)
  else if pypdf2 then
    match world file_path with
    | some doc => ({ document := some doc, file_path := some file_path }, true)
    | none => (self, false)
  else ({ self with file_path := some file_path }, true)

/-- `PdfProcessor.close` (lines 237-242): clear both references. -/
def close (_self : PdfProcessor) : PdfProcessor := ⟨none, none⟩

/-- Markdown lines for one paragraph (`_convert_to_markdown`, lines 303-312). -/
def paraMarkdown (p : Para) : List String :=
  let t := String.mk (trimL p.text.data)
  if t = "" then []
  else if p.is_chapter.getD false then ["### " ++ t ++ "\n", ""]
  else [t ++ "\n", ""]

/-- Markdown lines for one page (`_convert_to_markdown`, lines 298-312). -/
def pageMarkdown (idx : Nat) (pg : PageContent) : List String :=
  ("## 第 " ++ toString (idx + 1) ++ " 頁\n") :: pg.paragraphs.flatMap paraMarkdown

/-- `PdfProcessor._convert_to_markdown` (lines 283-320). -/
def convert_to_markdown (pages : List PageContent) : String :=
  String.intercalate "\n"
    ("# PDF轉換文檔\n" :: (pages.enum.flatMap (fun pr => pageMarkdown pr.1 pr.2)))

/-- `PdfProcessor.pdf_to_markdown` (lines 244-281).  `writeOk` models the
`open(output_path, 'w')` write succeeding; a raised write exception is
caught by the surrounding `try` and yields `False`.  `close` is invoked only
on the success path, exactly as in the source. -/
def pdf_to_markdown (pypdf2 pdfplumber : Bool)
    (world : String → Option (List String)) (writeOk : Bool)
    (self : PdfProcessor) (input_path output_path : String) :
    PdfProcessor × Bool :=
  let r := load_pdf pypdf2 pdfplumber world self input_path
  if !r.2 then (r.1, false)
  else
    let pages :=
      if pdfplumber then extract_with_pdfplumber pdfplumber world input_path
      else extract_text_with_structure pypdf2 r.1
    if pages.isEmpty then (r.1, false)
    else
      let _markdown_content := convert_to_markdown pages
      let _output := output_path
      if writeOk then (close r.1, true) else (r.1, false)

/-! ### ChapterDetector (`detect_chapters`, lines 176-207) -/

def isCJKNumeral (c : Char) : Bool :=
  ['一', '二', '三', '四', '五', '六', '七', '八', '九', '十'].contains c

def isHanNumChar (c : Char) : Bool := isCJKNumeral c || c.isDigit

/-- `re.match(r'^第[一二三四五六七八九十\d]+章', text)` (resp. `節`): `第`,
then a non-empty greedy run of CJK numerals or digits, then the end
character (which is not in the run's class, so greedy matching is exact). -/
def matchHanNumbered (endCh : Char) (cs : List Char) : Bool :=
  match cs with
  | c :: rest =>
    c == '第' && !(rest.takeWhile isHanNumChar).isEmpty &&
      ((rest.dropWhile isHanNumChar).head? == some endCh)
  | [] => false

def headIsDigit (l : List Char) : Bool :=
  match l with
  | c :: _ => c.isDigit
  | [] => false

/-- `re.match(r'^Chapter\s+\d+', text, re.IGNORECASE)`: the literal
case-folded `chapter`, one or more whitespace, then a digit. -/
def matchChapterEn (cs : List Char) : Bool :=
  "chapter".data.isPrefixOf (cs.map Char.toLower) &&
    (let r := cs.drop 7
     !(r.takeWhile Char.isWhitespace).isEmpty &&
       headIsDigit (r.dropWhile Char.isWhitespace))

/-- `re.match(r'^\d+\.', text)`. -/
def matchNumDot (cs : List Char) : Bool :=
  !(cs.takeWhile Char.isDigit).isEmpty &&
    ((cs.dropWhile Char.isDigit).head? == some '.')

/-- `re.match(r'^[一二三四五六七八九十]+、', text)`. -/
def matchCJKEnum (cs : List Char) : Bool :=
  !(cs.takeWhile isCJKNumeral).isEmpty &&
    ((cs.dropWhile isCJKNumeral).head? == some '、')

/-- The ordered pattern list of `detect_chapters` (lines 186-192). -/
def chapter_patterns : List (List Char → Bool) :=
  [matchHanNumbered '章', matchChapterEn, matchHanNumbered '節',
   matchNumDot, matchCJKEnum]

/-- The for-loop over patterns with `break` (lines 199-203): some pattern
matches. -/
def matchesChapterPattern (text : String) : Bool :=
  chapter_patterns.any (fun pat => pat text.data)

/-- The per-paragraph mutation of `detect_chapters` (lines 195-205): on a
match set both flags to `True`; otherwise set `is_chapter := False` and
leave `is_title` untouched (the for-else branch). -/
def detectPara (p : Para) : Para :=
  if matchesChapterPattern p.text then
    { p with is_chapter := some true, is_title := some true }
  else { p with is_chapter := some false }

/-- `PdfProcessor.detect_chapters` (lines 176-207). -/
def detect_chapters (pages : List PageContent) : List PageContent :=
  pages.map (fun pg => { pg with paragraphs := pg.paragraphs.map detectPara })

theorem matchesChapterPattern_iff (text : String) :
    matchesChapterPattern text = true ↔
      (matchHanNumbered '章' text.data = true ∨ matchChapterEn text.data = true ∨
       matchHanNumbered '節' text.data = true ∨ matchNumDot text.data = true ∨
       matchCJKEnum text.data = true) := by
  simp [matchesChapterPattern, chapter_patterns]

/-- C4: every paragraph whose text matches one of the five ordered patterns
(CJK `第…章`, case-insensitive `Chapter <n>`, CJK `第…節`, leading
`<digits>.`, CJK enumerator `<numeral>、`) gets both `is_chapter` and
`is_title` set to `True`; a paragraph matching none gets `is_chapter :=
False` with its previous `is_title` (set or absent) untouched; paragraph
texts and page structure are preserved. -/
theorem detect_chapters_spec :
    (∀ (pages : List PageContent) (i j : Nat),
        ((detect_chapters pages)[i]?.bind (fun pg => pg.paragraphs[j]?)) =
          (pages[i]?.bind (fun pg => pg.paragraphs[j]?)).map detectPara) ∧
    (∀ p : Para,
        ((matchHanNumbered '章' p.text.data = true ∨
          matchChapterEn p.text.data = true ∨
          matchHanNumbered '節' p.text.data = true ∨
          matchNumDot p.text.data = true ∨
          matchCJKEnum p.text.data = true) →
            (detectPara p).is_chapter = some true ∧
            (detectPara p).is_title = some true) ∧
        (¬ (matchHanNumbered '章' p.text.data = true ∨
            matchChapterEn p.text.data = true ∨
            matchHanNumbered '節' p.text.data = true ∨
            matchNumDot p.text.data = true ∨
            matchCJKEnum p.text.data = true) →
              (detectPara p).is_chapter = some false ∧
              (detectPara p).is_title = p.is_title) ∧
        (detectPara p).text = p.text) := by
  constructor
  · intro pages i j
    simp only [detect_chapters, List.getElem?_map]
    cases pages[i]? <;> simp
  · intro p
    refine ⟨?_, ?_, ?_⟩
    · intro h
      rw [← matchesChapterPattern_iff] at h
      simp [detectPara, h]
    · intro h
      rw [← matchesChapterPattern_iff] at h
      simp only [Bool.not_eq_true] at h
      simp [detectPara, h]
    · by_cases h : matchesChapterPattern p.text <;> simp [detectPara, h]

/-- C4 (witness): a `第一章` paragraph gets both flags; a plain sentence
keeps its previously set `is_title` while `is_chapter` becomes `False`. -/
theorem detect_chapters_spec_witness :
    ((detectPara ⟨"第一章 起點", 12, none, none⟩).is_chapter = some true ∧
     (detectPara ⟨"第一章 起點", 12, none, none⟩).is_title = some true) ∧
    ((detectPara ⟨"hello.", 12, none, some true⟩).is_chapter = some false ∧
     (detectPara ⟨"hello.", 12, none, some true⟩).is_title = some true) := by
  refine ⟨detect_chapters_spec.2 _ |>.1 (Or.inl (by decide)), ?_⟩
  have h := detect_chapters_spec.2 ⟨"hello.", 12, none, some true⟩ |>.2.1
    (by decide)
  exact ⟨h.1, h.2⟩

theorem detectPara_idem (p : Para) : detectPara (detectPara p) = detectPara p := by
  by_cases h : matchesChapterPattern p.text
  · simp [detectPara, h]
  · simp [detectPara, h]

/-- C5: `detect_chapters` is idempotent — applying it twice yields exactly
the same pages (hence the same flags) as applying it once. -/
theorem detect_chapters_idempotent (pages : List PageContent) :
    detect_chapters (detect_chapters pages) = detect_chapters pages := by
  unfold detect_chapters
  rw [List.map_map]
  apply List.map_congr_left
  intro pg _
  cases pg with
  | mk n ps =>
    simp only [Function.comp]
    rw [List.map_map]
    apply congrArg
    apply List.map_congr_left
    intro p _
    exact detectPara_idem p

/-- C6: in the text-only pdfplumber extraction path, a produced paragraph is
flagged a title exactly when it is shorter than 100 characters and fully
upper-case, or shorter than 50 characters and not ending in a period; title
paragraphs get font size 16, the rest 12. -/
theorem extract_with_pdfplumber_title_spec :
    ∀ (available : Bool) (world : String → Option (List String))
      (path : String) (pg : PageContent),
      pg ∈ extract_with_pdfplumber available world path →
      ∀ p ∈ pg.paragraphs,
        (p.is_title = some true ↔
          ((pyIsUpper p.text = true ∧ p.text.length < 100) ∨
           (p.text.length < 50 ∧ endsWithDot p.text = false))) ∧
        (p.is_title = some true → p.font_size = 16) ∧
        (p.is_title ≠ some true → p.font_size = 12) := by
  intro available world path pg hpg p hp
  unfold extract_with_pdfplumber at hpg
  by_cases hav : available
  · rw [hav] at hpg
    simp only [Bool.not_true, Bool.false_eq_true, if_false] at hpg
    cases hw : world path with
    | none => rw [hw] at hpg; simp at hpg
    | some texts =>
      rw [hw] at hpg
      rw [List.mem_filterMap] at hpg
      obtain ⟨⟨i, t⟩, _, heq⟩ := hpg
      dsimp only at heq
      by_cases ht : t = ""
      · rw [if_pos ht] at heq; cases heq
      · rw [if_neg ht] at heq
        by_cases hpar : ((splitParas t).map mkPlumberPara).isEmpty
        · rw [if_pos hpar] at heq; cases heq
        · rw [if_neg hpar] at heq
          cases heq
          simp only [List.mem_map] at hp
          obtain ⟨s, _, rfl⟩ := hp
          have hiff : plumberTitle s = true ↔
              (pyIsUpper s = true ∧ s.length < 100) ∨
              (s.length < 50 ∧ endsWithDot s = false) := by
            simp [plumberTitle, Bool.not_eq_true']
          refine ⟨?_, ?_, ?_⟩
          · show some (plumberTitle s) = some true ↔ _
            rw [Option.some_inj]
            exact hiff
          · intro h
            have hb : plumberTitle s = true := Option.some_inj.mp h
            show (if plumberTitle s then 16 else 12) = 16
            rw [if_pos hb]
          · intro hne
            have hb : plumberTitle s = false := by
              by_cases hbb : plumberTitle s
              · exact absurd (show (mkPlumberPara s).is_title = some true by
                  simp [mkPlumberPara, hbb]) hne
              · simpa using hbb
            show (if plumberTitle s then 16 else 12) = 12
            rw [hb]
            simp
  · simp only [Bool.not_eq_true] at hav
    rw [hav] at hpg
    simp at hpg

/-- C6 (witness): a single all-caps page text yields one title paragraph
with font size 16. -/
theorem extract_with_pdfplumber_title_spec_witness :
    ((mkPlumberPara "CHAPTER ONE").is_title = some true ↔
      ((pyIsUpper "CHAPTER ONE" = true ∧ ("CHAPTER ONE" : String).length < 100) ∨
       (("CHAPTER ONE" : String).length < 50 ∧
         endsWithDot "CHAPTER ONE" = false))) ∧
    ((mkPlumberPara "CHAPTER ONE").is_title = some true →
      (mkPlumberPara "CHAPTER ONE").font_size = 16) := by
  have h := extract_with_pdfplumber_title_spec true
    (fun _ => some ["CHAPTER ONE"]) "f.pdf"
    ⟨1, [mkPlumberPara "CHAPTER ONE"]⟩ (by decide)
    (mkPlumberPara "CHAPTER ONE") (by decide)
  exact ⟨h.1, h.2.1⟩

/-- The PDF world used in the C2 failing-input evaluation: `book.pdf` loads
as a one-page document whose extracted text is empty. -/
def cexPdfWorld : String → Option (List String) :=
  fun p => if p = "book.pdf" then some [""] else none

/-- C2 (evaluation at the failing input): the conversion fails with
`EmptyExtraction` (no extractable paragraphs), yet the processor still holds
the document and the file path — `close` is never called on this failure
path, contradicting the requirement that the handle is released on both
success and failure paths. -/
theorem pdf_to_markdown_leak :
    (pdf_to_markdown true true cexPdfWorld true ⟨none, none⟩
        "book.pdf" "out.md").2 = false ∧
    (pdf_to_markdown true true cexPdfWorld true ⟨none, none⟩
        "book.pdf" "out.md").1.document = some [""] ∧
    (pdf_to_markdown true true cexPdfWorld true ⟨none, none⟩
        "book.pdf" "out.md").1.file_path = some "book.pdf" := by
  refine ⟨?_, ?_, ?_⟩ <;> decide

/-! ### EpubProcessor (src/core/epub_processor.py) -/

/-- The in-memory book object produced by `ebooklib.epub.read_epub`
(external collaborator); its internals are irrelevant here, items are
name/content pairs. -/
structure EpubBook where
  items : List (String × String)
  deriving DecidableEq, Repr

structure EpubStats where
  simplified_detected : Bool
  conversion_performed : Bool
  total_chars : Nat
  changed_chars : Nat
  deriving DecidableEq, Repr

structure EpubProcessor where
  book : Option EpubBook
  original_path : Option String
  line_height : ℚ
  conversion_stats : EpubStats
  deriving DecidableEq, Repr

/-- `EpubProcessor.__init__` (lines 19-28). -/
def initEpubProcessor (line_height : ℚ) : EpubProcessor :=
  ⟨none, none, line_height, ⟨false, false, 0, 0⟩⟩

/-- `EpubProcessor.load_epub` (lines 30-46): `read_epub` is the ebooklib
collaborator (`none` = it raises).  On an exception nothing was assigned and
`False` is returned; on success the book and path are stored. -/
def load_epub (read_epub : String → Option EpubBook) (self : EpubProcessor)
    (file_path : String) : EpubProcessor × Bool :=
  match read_epub file_path with
  | some b => ({ self with book := some b, original_path := some file_path }, true)
  | none => (self, false)

/-- `EpubProcessor.modify_reading_direction_and_font` (lines 48-89): the
guard `if not self.book: return False` (lines 58-59), then the loaded-book
work (CSS creation, BeautifulSoup injection, script conversion — lines
61-89, all on the external book object inside a `try` that returns `False`
on any exception).  The loaded-book branch is a collaborator parameter
`loadedBody`; the claim under verification only exercises the guard. -/
def modify_reading_direction_and_font
    (loadedBody : EpubProcessor → EpubProcessor × Bool)
    (self : EpubProcessor) : EpubProcessor × Bool :=
  if self.book = none then (self, false) else loadedBody self

/-- C8: when `load_epub` on a fresh processor fails, no book is retained
(the processor is exactly the fresh one), and a subsequent
`modify_reading_direction_and_font` returns `False` without touching the
state — for every possible behaviour of the loaded-book branch. -/
theorem load_fail_then_modify_clean :
    ∀ (read_epub : String → Option EpubBook) (lh : ℚ) (path : String)
      (loadedBody : EpubProcessor → EpubProcessor × Bool),
      (load_epub read_epub (initEpubProcessor lh) path).2 = false →
      (load_epub read_epub (initEpubProcessor lh) path).1.book = none ∧
      (load_epub read_epub (initEpubProcessor lh) path).1 =
        initEpubProcessor lh ∧
      modify_reading_direction_and_font loadedBody
          (load_epub read_epub (initEpubProcessor lh) path).1 =
        ((load_epub read_epub (initEpubProcessor lh) path).1, false) := by
  intro read_epub lh path loadedBody hfail
  unfold load_epub at hfail ⊢
  cases hr : read_epub path with
  | some b => rw [hr] at hfail; simp at hfail
  | none =>
    refine ⟨rfl, rfl, ?_⟩
    show modify_reading_direction_and_font loadedBody (initEpubProcessor lh) =
      (initEpubProcessor lh, false)
    unfold modify_reading_direction_and_font
    exact if_pos rfl

/-- C8 (witness): concrete instantiation with an always-failing reader. -/
theorem load_fail_then_modify_clean_witness :
    (load_epub (fun _ => none) (initEpubProcessor 1) "bad.epub").1.book =
      none ∧
    modify_reading_direction_and_font (fun s => (s, true))
        (load_epub (fun _ => none) (initEpubProcessor 1) "bad.epub").1 =
      ((load_epub (fun _ => none) (initEpubProcessor 1) "bad.epub").1,
        false) := by
  have h := load_fail_then_modify_clean (fun _ => none) 1 "bad.epub"
    (fun s => (s, true)) rfl
  exact ⟨h.1, h.2.2⟩

/-! ### MarkdownGenerator._sanitize_filename (src/core/markdown_generator.py,
lines 394-405) -/

/-- The character class `[<>:"/\\|?*]`. -/
def unsafeChar (c : Char) : Bool :=
  ['<', '>', ':', '"', '/', '\\', '|', '?', '*'].contains c

/-- `re.sub(r'[<>:"/\\|?*]', '_', filename)`: a single-character class, so
the substitution is character-wise. -/
def replaceUnsafe (cs : List Char) : List Char :=
  cs.map (fun c => if unsafeChar c then '_' else c)

/-- The matcher of `re.sub(r'\s+', '_', ·)`: a maximal non-empty whitespace
run is replaced by one underscore. -/
def wsMatcher (cs : List Char) : Option (List Char × List Char) :=
  match cs with
  | c :: rest =>
    if c.isWhitespace then some (['_'], rest.dropWhile Char.isWhitespace)
    else none
  | [] => none

theorem wsMatcher_consuming : Consuming wsMatcher := by
  intro cs out tail h
  match cs with
  | [] => simp [wsMatcher] at h
  | c :: rest =>
    simp only [wsMatcher] at h
    by_cases hc : c.isWhitespace
    · rw [if_pos hc] at h
      cases h
      have := length_dropWhile_le Char.isWhitespace rest
      simp only [List.length_cons]
      omega
    · rw [if_neg hc] at h; cases h

def isDotUnderscore (c : Char) : Bool := c == '.' || c == '_'

/-- Python `safe_name.strip('._')`. -/
def stripDotUnderscore (cs : List Char) : List Char :=
  ((cs.dropWhile isDotUnderscore).reverse.dropWhile isDotUnderscore).reverse

/-- Lines 397-399 of `_sanitize_filename`: replace unsafe characters with
`_`, collapse whitespace runs to `_`, strip leading/trailing dots and
underscores. -/
def sanitizedCore (filename : String) : List Char :=
  stripDotUnderscore (scanM wsMatcher (replaceUnsafe filename.data))

/-- Lines 402-403: `if len(safe_name) > 50: safe_name = safe_name[:50]`. -/
def sanitizedTrunc (filename : String) : List Char :=
  if 50 < (sanitizedCore filename).length then (sanitizedCore filename).take 50
  else sanitizedCore filename

/-- `MarkdownGenerator._sanitize_filename` (lines 394-405): the pipeline
above, then `return safe_name or 'untitled'`. -/
def sanitize_filename (filename : String) : String :=
  if (sanitizedTrunc filename).isEmpty then "untitled"
  else String.mk (sanitizedTrunc filename)

theorem mem_of_mem_dropWhile {p : Char → Bool} :
    ∀ {l : List Char} {x : Char}, x ∈ l.dropWhile p → x ∈ l := by
  intro l
  induction l with
  | nil => intro x h; simp [List.dropWhile] at h
  | cons c rest ih =>
    intro x h
    simp only [List.dropWhile] at h
    cases hp : p c
    · rw [hp] at h; exact h
    · rw [hp] at h; exact List.mem_cons_of_mem c (ih h)

theorem head?_dropWhile_not {p : Char → Bool} :
    ∀ {l : List Char} {c : Char}, (l.dropWhile p).head? = some c → p c = false := by
  intro l
  induction l with
  | nil => intro c h; simp [List.dropWhile] at h
  | cons d rest ih =>
    intro c h
    simp only [List.dropWhile] at h
    cases hp : p d
    · rw [hp] at h
      simp only [List.head?_cons, Option.some_inj] at h
      subst h; exact hp
    · rw [hp] at h; exact ih h

theorem ws_scanF_mem :
    ∀ (f : Nat) (l : List Char) (c : Char), c ∈ scanF wsMatcher f l →
      c = '_' ∨ (c ∈ l ∧ c.isWhitespace = false) := by
  intro f
  induction f with
  | zero => intro l c h; simp [scanF] at h
  | succ f ih =>
    intro l c h
    cases l with
    | nil => simp [scanF] at h
    | cons d rest =>
      simp only [scanF] at h
      by_cases hd : d.isWhitespace
      · have hw : wsMatcher (d :: rest) =
            some (['_'], rest.dropWhile Char.isWhitespace) := by
          simp [wsMatcher, hd]
        rw [hw] at h
        simp only [List.cons_append, List.nil_append, List.mem_cons] at h
        rcases h with h | h
        · exact Or.inl h
        · rcases ih _ _ h with h' | ⟨hmem, hws⟩
          · exact Or.inl h'
          · exact Or.inr ⟨List.mem_cons_of_mem d (mem_of_mem_dropWhile hmem), hws⟩
      · have hw : wsMatcher (d :: rest) = none := by
          simp [wsMatcher, hd]
        rw [hw] at h
        simp only [List.mem_cons] at h
        rcases h with h | h
        · subst h
          exact Or.inr ⟨List.mem_cons_self _ _, by
            simpa using hd⟩
        · rcases ih _ _ h with h' | ⟨hmem, hws⟩
          · exact Or.inl h'
          · exact Or.inr ⟨List.mem_cons_of_mem d hmem, hws⟩

theorem replaceUnsafe_mem {l : List Char} {c : Char}
    (h : c ∈ replaceUnsafe l) : unsafeChar c = false := by
  simp only [replaceUnsafe, List.mem_map] at h
  obtain ⟨x, _, rfl⟩ := h
  by_cases hx : unsafeChar x
  · rw [if_pos hx]; decide
  · rw [if_neg hx]; simpa using hx

theorem stripDotUnderscore_last {l : List Char} {c : Char}
    (h : (stripDotUnderscore l).getLast? = some c) : isDotUnderscore c = false := by
  unfold stripDotUnderscore at h
  rw [List.getLast?_reverse] at h
  exact head?_dropWhile_not h

theorem stripDotUnderscore_head {l : List Char} {c : Char}
    (h : (stripDotUnderscore l).head? = some c) : isDotUnderscore c = false := by
  unfold stripDotUnderscore at h
  rw [List.head?_reverse] at h
  set B := (l.dropWhile isDotUnderscore).reverse with hB
  have hsplit : B.takeWhile isDotUnderscore ++ B.dropWhile isDotUnderscore = B := by
    rw [List.takeWhile_append_dropWhile]
  have h2 : B.getLast? = some c := by
    rw [← hsplit, List.getLast?_append, h]
    rfl
  rw [hB, List.getLast?_reverse] at h2
  exact head?_dropWhile_not h2

theorem head?_take {l : List Char} {n : Nat} (hn : 0 < n) :
    (l.take n).head? = l.head? := by
  cases l with
  | nil => simp
  | cons c rest =>
    cases n with
    | zero => omega
    | succ m => rfl

theorem sanitizedCore_mem {s : String} {c : Char} (h : c ∈ sanitizedCore s) :
    c ∈ scanM wsMatcher (replaceUnsafe s.data) := by
  unfold sanitizedCore stripDotUnderscore at h
  rw [List.mem_reverse] at h
  have h2 := mem_of_mem_dropWhile h
  rw [List.mem_reverse] at h2
  exact mem_of_mem_dropWhile h2

theorem sanitizedTrunc_mem {s : String} {c : Char} (h : c ∈ sanitizedTrunc s) :
    c ∈ scanM wsMatcher (replaceUnsafe s.data) := by
  unfold sanitizedTrunc at h
  by_cases hlen : 50 < (sanitizedCore s).length
  · rw [if_pos hlen] at h
    exact sanitizedCore_mem (List.mem_of_mem_take h)
  · rw [if_neg hlen] at h
    exact sanitizedCore_mem h

theorem sanitized_char_prop {s : String} {c : Char}
    (h : c ∈ scanM wsMatcher (replaceUnsafe s.data)) :
    unsafeChar c = false ∧ c.isWhitespace = false := by
  rcases ws_scanF_mem _ _ _ h with rfl | ⟨hmem, hws⟩
  · exact ⟨by decide, by decide⟩
  · exact ⟨replaceUnsafe_mem hmem, hws⟩

theorem sanitizedTrunc_head {s : String} {c : Char}
    (h : (sanitizedTrunc s).head? = some c) : isDotUnderscore c = false := by
  unfold sanitizedTrunc at h
  by_cases hlen : 50 < (sanitizedCore s).length
  · rw [if_pos hlen, head?_take (by omega)] at h
    unfold sanitizedCore at h
    exact stripDotUnderscore_head h
  · rw [if_neg hlen] at h
    unfold sanitizedCore at h
    exact stripDotUnderscore_head h

/-- C9 (counterexample input): 49 `a`s, an underscore, one more `a`. -/
def cexFilename : String := String.mk (List.replicate 49 'a' ++ ['_', 'a'])

/-- C9 (counterexample): sanitizing `cexFilename` yields a 50-character name
ending in `_` — the trailing underscore survives because truncation happens
after stripping, refuting the claim that leading and trailing dots and
underscores are removed from the result. -/
theorem sanitize_filename_counterexample :
    (sanitize_filename cexFilename).data.getLast? = some '_' ∧
    (sanitize_filename cexFilename).length = 50 := by
  constructor
  · decide
  · decide

/-- C9 (amended): `_sanitize_filename` returns a non-empty string of length
at most 50 with no filesystem-unsafe character and no whitespace, never
starting with a dot or underscore, falling back to `untitled`; trailing dots
and underscores are removed before the 50-character truncation, hence absent
whenever the result is shorter than 50 characters (a truncated result may
still end with one); sanitizing `A/B:C*D` gives `A_B_C_D`. -/
theorem sanitize_filename_amended :
    (∀ s : String,
      sanitize_filename s ≠ "" ∧
      (sanitize_filename s).length ≤ 50 ∧
      (∀ c ∈ (sanitize_filename s).data,
        unsafeChar c = false ∧ c.isWhitespace = false) ∧
      (∀ c, (sanitize_filename s).data.head? = some c →
        isDotUnderscore c = false) ∧
      ((sanitize_filename s).length < 50 →
        ∀ c, (sanitize_filename s).data.getLast? = some c →
          isDotUnderscore c = false)) ∧
    sanitize_filename "A/B:C*D" = "A_B_C_D" ∧
    sanitize_filename "..." = "untitled" := by
  refine ⟨?_, by decide, by decide⟩
  intro s
  by_cases he : (sanitizedTrunc s).isEmpty
  · have hrw : sanitize_filename s = "untitled" := by
      unfold sanitize_filename
      rw [if_pos he]
    rw [hrw]
    exact ⟨by decide, by decide, by decide, by decide, by decide⟩
  · have hrw : sanitize_filename s = String.mk (sanitizedTrunc s) := by
      unfold sanitize_filename
      rw [if_neg he]
    rw [hrw]
    have hne : sanitizedTrunc s ≠ [] := by
      intro h0
      rw [h0] at he
      exact he rfl
    refine ⟨?_, ?_, ?_, ?_, ?_⟩
    · intro h0
      apply hne
      have hd : (String.mk (sanitizedTrunc s)).data = ("" : String).data := by
        rw [h0]
      simpa using hd
    · show (sanitizedTrunc s).length ≤ 50
      unfold sanitizedTrunc
      by_cases hlen : 50 < (sanitizedCore s).length
      · rw [if_pos hlen]
        simp
      · rw [if_neg hlen]
        omega
    · intro c hc
      exact sanitized_char_prop (sanitizedTrunc_mem hc)
    · intro c hc
      exact sanitizedTrunc_head hc
    · intro hshort c hc
      have hshort2 : (sanitizedTrunc s).length < 50 := hshort
      show isDotUnderscore c = false
      have hc2 : (sanitizedTrunc s).getLast? = some c := hc
      unfold sanitizedTrunc at hc2 hshort2
      by_cases hlen : 50 < (sanitizedCore s).length
      · exfalso
        rw [if_pos hlen] at hshort2
        rw [List.length_take] at hshort2
        omega
      · rw [if_neg hlen] at hc2
        unfold sanitizedCore at hc2
        exact stripDotUnderscore_last hc2

/-- C9 (witness for the amended theorem): sanitizing `a b` gives `a_b`;
non-emptiness, the character properties at `a`, and the no-trailing
property at `b` all follow by applying the theorem. -/
theorem sanitize_filename_amended_witness :
    sanitize_filename "a b" ≠ "" ∧
    (unsafeChar 'a' = false ∧ Char.isWhitespace 'a' = false) ∧
    isDotUnderscore 'b' = false := by
  refine ⟨(sanitize_filename_amended.1 "a b").1, ?_, ?_⟩
  · exact (sanitize_filename_amended.1 "a b").2.2.1 'a' (by decide)
  · exact (sanitize_filename_amended.1 "a b").2.2.2.2 (by decide) 'b' (by decide)

/-! ### MarkdownGenerator._detect_pdf_chapters (src/core/markdown_generator.py,
lines 330-360) -/

structure PdfChapter where
  title : String
  content : String
  deriving DecidableEq, Repr

/-- `paragraph['text'][:50] + ('...' if len(paragraph['text']) > 50 else '')`
(line 342). -/
def truncTitle (t : String) : String :=
  String.mk (t.data.take 50) ++ (if 50 < t.length then "..." else "")

/-- `paragraph.get('is_title', False) or paragraph.get('is_chapter', False)`
(line 336). -/
def paraFlagged (p : Para) : Bool :=
  p.is_title.getD false || p.is_chapter.getD false

/-- The loop of `_detect_pdf_chapters` (lines 335-358): walk the paragraphs
carrying the current chapter; a flagged paragraph closes the current chapter
and opens a new one; an unflagged paragraph is appended to the current
chapter, or opens the synthetic `Introduction` chapter if none exists; the
last chapter is appended at the end. -/
def detectGo : List Para → Option PdfChapter → List PdfChapter → List PdfChapter
  | [], cur, acc => acc ++ cur.toList
  | p :: rest, cur, acc =>
    if paraFlagged p then
      detectGo rest (some ⟨truncTitle p.text, p.text ++ "\n\n"⟩)
        (acc ++ cur.toList)
    else
      match cur with
      | some c =>
        detectGo rest (some ⟨c.title, c.content ++ p.text ++ "\n\n"⟩) acc
      | none =>
        detectGo rest (some ⟨"Introduction", p.text ++ "\n\n"⟩) acc

/-- `MarkdownGenerator._detect_pdf_chapters` (lines 330-360). -/
def detect_pdf_chapters (paragraphs : List Para) : List PdfChapter :=
  detectGo paragraphs none []

/-- Concatenation of a list of strings (for stating content preservation). -/
def strConcat : List String → String
  | [] => ""
  | s :: rest => s ++ strConcat rest

/-- The text of each paragraph as appended by the loop. -/
def chapterTexts (ps : List Para) : List String :=
  ps.map (fun p => p.text ++ "\n\n")

theorem strConcat_append :
    ∀ l₁ l₂ : List String, strConcat (l₁ ++ l₂) = strConcat l₁ ++ strConcat l₂ := by
  intro l₁ l₂
  induction l₁ with
  | nil => simp [strConcat, String.empty_append]
  | cons s rest ih =>
    show s ++ strConcat (rest ++ l₂) = (s ++ strConcat rest) ++ strConcat l₂
    rw [ih, String.append_assoc]

def curContent : Option PdfChapter → String
  | some c => c.content
  | none => ""

theorem strConcat_toList (cur : Option PdfChapter) :
    strConcat (cur.toList.map PdfChapter.content) = curContent cur := by
  cases cur with
  | none => rfl
  | some c => simp [strConcat, curContent, String.append_empty]

theorem detectGo_acc :
    ∀ (ps : List Para) (cur : Option PdfChapter) (acc : List PdfChapter),
      detectGo ps cur acc = acc ++ detectGo ps cur [] := by
  intro ps
  induction ps with
  | nil => intro cur acc; simp [detectGo]
  | cons p rest ih =>
    intro cur acc
    simp only [detectGo]
    by_cases hf : paraFlagged p
    · rw [if_pos hf, if_pos hf, ih _ (acc ++ cur.toList), ih _ ([] ++ cur.toList)]
      simp [List.append_assoc]
    · rw [if_neg hf, if_neg hf]
      cases cur with
      | some c => exact ih _ acc
      | none => exact ih _ acc

theorem detectGo_content :
    ∀ (ps : List Para) (cur : Option PdfChapter) (acc : List PdfChapter),
      strConcat ((detectGo ps cur acc).map PdfChapter.content) =
        strConcat (acc.map PdfChapter.content) ++ curContent cur ++
          strConcat (chapterTexts ps) := by
  intro ps
  induction ps with
  | nil =>
    intro cur acc
    simp only [detectGo, List.map_append, strConcat_append, strConcat_toList,
      chapterTexts, List.map_nil]
    simp [strConcat, String.append_empty]
  | cons p rest ih =>
    intro cur acc
    simp only [detectGo]
    by_cases hf : paraFlagged p
    · rw [if_pos hf, ih]
      simp only [List.map_append, strConcat_append, strConcat_toList,
        curContent, chapterTexts, List.map_cons, strConcat]
      simp [String.append_assoc]
    · rw [if_neg hf]
      cases cur with
      | some c =>
        rw [ih]
        simp only [curContent, chapterTexts, List.map_cons, strConcat]
        simp [String.append_assoc]
      | none =>
        rw [ih]
        simp only [curContent, chapterTexts, List.map_cons, strConcat]
        simp [String.append_assoc, String.empty_append]

theorem detectGo_ne_nil :
    ∀ (ps : List Para) (c : PdfChapter), detectGo ps (some c) [] ≠ [] := by
  intro ps
  induction ps with
  | nil => intro c; simp [detectGo]
  | cons p rest ih =>
    intro c
    simp only [detectGo]
    by_cases hf : paraFlagged p
    · rw [if_pos hf]
      rw [detectGo_acc]
      simp
    · rw [if_neg hf]
      exact ih _

theorem detectGo_head :
    ∀ (ps : List Para) (c : PdfChapter),
      (detectGo ps (some c) []).head? =
        some ⟨c.title, c.content ++
          strConcat (chapterTexts (ps.takeWhile (fun p => !paraFlagged p)))⟩ := by
  intro ps
  induction ps with
  | nil =>
    intro c
    simp [detectGo, chapterTexts, strConcat, String.append_empty]
  | cons p rest ih =>
    intro c
    simp only [detectGo]
    by_cases hf : paraFlagged p
    · rw [if_pos hf, detectGo_acc]
      have ht : (p :: rest).takeWhile (fun p => !paraFlagged p) = [] := by
        simp [List.takeWhile, hf]
      rw [ht]
      simp [chapterTexts, strConcat, String.append_empty]
    · rw [if_neg hf, ih]
      have ht : (p :: rest).takeWhile (fun p => !paraFlagged p) =
          p :: rest.takeWhile (fun p => !paraFlagged p) := by
        simp [List.takeWhile, hf]
      rw [ht]
      simp [chapterTexts, strConcat, String.append_assoc]

theorem detectGo_titles :
    ∀ (ps : List Para) (cur : Option PdfChapter) (acc : List PdfChapter)
      (ch : PdfChapter), ch ∈ detectGo ps cur acc →
      ch ∈ acc ∨ (∃ c, cur = some c ∧ ch.title = c.title) ∨
      ch.title = "Introduction" ∨
      ∃ p, p ∈ ps ∧ paraFlagged p = true ∧ ch.title = truncTitle p.text := by
  intro ps
  induction ps with
  | nil =>
    intro cur acc ch h
    simp only [detectGo, List.mem_append] at h
    rcases h with h | h
    · exact Or.inl h
    · cases cur with
      | none => simp at h
      | some c =>
        simp only [Option.toList_some, List.mem_singleton] at h
        exact Or.inr (Or.inl ⟨c, rfl, by rw [h]⟩)
  | cons p rest ih =>
    intro cur acc ch h
    simp only [detectGo] at h
    by_cases hf : paraFlagged p
    · rw [if_pos hf] at h
      rcases ih _ _ _ h with h' | ⟨c', hc', ht⟩ | h' | ⟨p', hp', hfl, ht⟩
      · rw [List.mem_append] at h'
        rcases h' with h'' | h''
        · exact Or.inl h''
        · cases cur with
          | none => simp at h''
          | some c =>
            simp only [Option.toList_some, List.mem_singleton] at h''
            exact Or.inr (Or.inl ⟨c, rfl, by rw [h'']⟩)
      · cases hc'
        exact Or.inr (Or.inr (Or.inr ⟨p, List.mem_cons_self _ _, hf, ht⟩))
      · exact Or.inr (Or.inr (Or.inl h'))
      · exact Or.inr (Or.inr (Or.inr ⟨p', List.mem_cons_of_mem p hp', hfl, ht⟩))
    · rw [if_neg hf] at h
      cases cur with
      | some c =>
        rcases ih _ _ _ h with h' | ⟨c', hc', ht⟩ | h' | ⟨p', hp', hfl, ht⟩
        · exact Or.inl h'
        · cases hc'
          exact Or.inr (Or.inl ⟨c, rfl, ht⟩)
        · exact Or.inr (Or.inr (Or.inl h'))
        · exact Or.inr (Or.inr (Or.inr ⟨p', List.mem_cons_of_mem p hp', hfl, ht⟩))
      | none =>
        rcases ih _ _ _ h with h' | ⟨c', hc', ht⟩ | h' | ⟨p', hp', hfl, ht⟩
        · exact Or.inl h'
        · cases hc'
          exact Or.inr (Or.inr (Or.inl ht))
        · exact Or.inr (Or.inr (Or.inl h'))
        · exact Or.inr (Or.inr (Or.inr ⟨p', List.mem_cons_of_mem p hp', hfl, ht⟩))

/-- C10: on a non-empty paragraph list, `_detect_pdf_chapters` produces at
least one chapter; the concatenation of all chapter contents equals the
concatenation of all paragraph texts (each with the `\n\n` separator) in
input order, so every paragraph lands in exactly one chapter; when the first
paragraph is unflagged, the first chapter is the synthetic `Introduction`
holding exactly the texts before the first flagged paragraph; and every
chapter is either the `Introduction` or titled by the 50-character-truncated
(`...`-suffixed when longer) text of some flagged paragraph. -/
theorem detect_pdf_chapters_spec :
    ∀ ps : List Para,
      (ps ≠ [] → detect_pdf_chapters ps ≠ []) ∧
      (strConcat ((detect_pdf_chapters ps).map PdfChapter.content) =
        strConcat (chapterTexts ps)) ∧
      (∀ p0, ps.head? = some p0 → paraFlagged p0 = false →
        (detect_pdf_chapters ps).head? = some ⟨"Introduction",
          strConcat (chapterTexts (ps.takeWhile (fun p => !paraFlagged p)))⟩) ∧
      (∀ ch ∈ detect_pdf_chapters ps,
        ch.title = "Introduction" ∨
        ∃ p, p ∈ ps ∧ paraFlagged p = true ∧ ch.title = truncTitle p.text) := by
  intro ps
  refine ⟨?_, ?_, ?_, ?_⟩
  · intro hne
    cases ps with
    | nil => exact absurd rfl hne
    | cons p rest =>
      unfold detect_pdf_chapters
      simp only [detectGo]
      by_cases hf : paraFlagged p
      · rw [if_pos hf]
        simp only [Option.toList_none, List.append_nil, List.nil_append]
        exact detectGo_ne_nil _ _
      · rw [if_neg hf]
        exact detectGo_ne_nil _ _
  · unfold detect_pdf_chapters
    rw [detectGo_content]
    simp [strConcat, curContent, String.empty_append]
  · intro p0 hh hflag
    cases ps with
    | nil => simp at hh
    | cons q rest =>
      simp only [List.head?_cons, Option.some_inj] at hh
      subst hh
      unfold detect_pdf_chapters
      simp only [detectGo]
      rw [if_neg (by simp [hflag]), detectGo_head]
      have ht : (q :: rest).takeWhile (fun p => !paraFlagged p) =
          q :: rest.takeWhile (fun p => !paraFlagged p) := by
        simp [List.takeWhile, hflag]
      rw [ht]
      simp [chapterTexts, strConcat, String.append_assoc]
  · intro ch hch
    rcases detectGo_titles ps none [] ch hch with h | ⟨c, hc, _⟩ | h | h
    · simp at h
    · cases hc
    · exact Or.inl h
    · exact Or.inr h

/-- The concrete paragraph list of the C10 witness: an unflagged preface
followed by a flagged heading. -/
def c10Paras : List Para :=
  [⟨"preface", 12, none, none⟩, ⟨"第一章", 12, some true, some true⟩]

/-- C10 (witness): on `c10Paras` the result is non-empty, starts with the
`Introduction` chapter holding the preface, and preserves all text. -/
theorem detect_pdf_chapters_spec_witness :
    detect_pdf_chapters c10Paras ≠ [] ∧
    (detect_pdf_chapters c10Paras).head? =
      some ⟨"Introduction", "preface" ++ "\n\n"⟩ ∧
    strConcat ((detect_pdf_chapters c10Paras).map PdfChapter.content) =
      strConcat (chapterTexts c10Paras) := by
  have h := detect_pdf_chapters_spec c10Paras
  refine ⟨h.1 (by decide), ?_, h.2.1⟩
  have h3 := h.2.2.1 ⟨"preface", 12, none, none⟩ rfl (by decide)
  rw [h3]
  decide

/-! ### EpubProcessor._post_process_opf — the textual OPF patch
(src/core/epub_processor.py, lines 344-357)

The patch is two `re.sub` passes plus a substring test:
`re.sub(r'page-progression-direction="[^"]*"',
        'page-progression-direction="ltr"', opf)`,
then, only if the plain substring `page-progression-direction` is absent,
`re.sub(r'(<spine[^>]*)(>)', r'\1 page-progression-direction="ltr"\2', opf)`.
Both patterns' repetition classes exclude their terminating character, so
greedy scanning needs no backtracking. -/

def ppd : List Char := "page-progression-direction".data

def ppdAttrPre : List Char := "page-progression-direction=\"".data

def ltrRepl : List Char := "page-progression-direction=\"ltr\"".data

/-- The matcher of the attribute substitution: the literal
`page-progression-direction="`, a greedy run of non-quote characters, and
the closing quote (the head of the `dropWhile` result); the whole match is
replaced by `page-progression-direction="ltr"`. -/
def matchAttr (cs : List Char) : Option (List Char × List Char) :=
  if ppdAttrPre.isPrefixOf cs then
    match (cs.drop ppdAttrPre.length).dropWhile (fun c => c != '"') with
    | _ :: tail => some (ltrRepl, tail)
    | [] => none
  else none

theorem matchAttr_consuming : Consuming matchAttr := by
  intro cs out tail h
  unfold matchAttr at h
  by_cases hp : ppdAttrPre.isPrefixOf cs
  · rw [if_pos hp] at h
    cases hd : (cs.drop ppdAttrPre.length).dropWhile (fun c => c != '"') with
    | nil => rw [hd] at h; cases h
    | cons d t =>
      rw [hd] at h
      cases h
      have h1 :=
        length_dropWhile_le (fun c => c != '"') (cs.drop ppdAttrPre.length)
      rw [hd] at h1
      have h2 : (cs.drop ppdAttrPre.length).length =
          cs.length - ppdAttrPre.length := List.length_drop _ _
      have h3 : ppdAttrPre.length ≤ cs.length :=
        (List.isPrefixOf_iff_prefix.mp hp).length_le
      have h4 : 0 < ppdAttrPre.length := by decide
      simp only [List.length_cons] at h1
      omega
  · rw [if_neg hp] at h; cases h

/-- The attribute substitution pass. -/
def subAttr (cs : List Char) : List Char := scanM matchAttr cs

theorem matchAttr_some {cs out tail : List Char}
    (h : matchAttr cs = some (out, tail)) :
    out = ltrRepl ∧ ppdAttrPre.isPrefixOf cs = true := by
  unfold matchAttr at h
  by_cases hp : ppdAttrPre.isPrefixOf cs
  · rw [if_pos hp] at h
    cases hd : (cs.drop ppdAttrPre.length).dropWhile (fun c => c != '"') with
    | nil => rw [hd] at h; cases h
    | cons d t =>
      rw [hd] at h
      cases h
      exact ⟨rfl, hp⟩
  · rw [if_neg hp] at h; cases h

theorem matchAttr_some_quote {cs out tail : List Char}
    (h : matchAttr cs = some (out, tail)) :
    ∃ x ∈ cs.drop ppdAttrPre.length, x = '"' := by
  unfold matchAttr at h
  by_cases hp : ppdAttrPre.isPrefixOf cs
  · rw [if_pos hp] at h
    cases hd : (cs.drop ppdAttrPre.length).dropWhile (fun c => c != '"') with
    | nil => rw [hd] at h; cases h
    | cons d t =>
      refine ⟨d, ?_, ?_⟩
      · exact mem_of_mem_dropWhile (by rw [hd]; exact List.mem_cons_self _ _)
      · have := head?_dropWhile_not (l := cs.drop ppdAttrPre.length)
          (c := d) (by rw [hd]; rfl)
        simpa using this
  · rw [if_neg hp] at h; cases h

/-- The replacement text matches itself (with the scan resuming right after
it): the substitution is stable on its own output. -/
theorem matchAttr_ltrRepl (xs : List Char) :
    matchAttr (ltrRepl ++ xs) = some (ltrRepl, xs) := by
  have hdecomp : ltrRepl = ppdAttrPre ++ ('l' :: 't' :: 'r' :: '"' :: []) := by
    decide
  unfold matchAttr
  rw [hdecomp, List.append_assoc]
  rw [if_pos (List.isPrefixOf_iff_prefix.mpr (List.prefix_append _ _))]
  rw [List.drop_left]
  simp only [List.cons_append, List.nil_append]
  rw [List.dropWhile_cons_of_pos (by decide),
    List.dropWhile_cons_of_pos (by decide),
    List.dropWhile_cons_of_pos (by decide),
    List.dropWhile_cons_of_neg (by decide)]

/-- Python's substring test `'page-progression-direction' in opf_content`. -/
def containsL (pat : List Char) : List Char → Bool
  | [] => pat.isPrefixOf []
  | c :: rest => pat.isPrefixOf (c :: rest) || containsL pat rest

theorem containsL_of_prefix_drop (pat : List Char) :
    ∀ (l : List Char) (n : Nat), pat.isPrefixOf (l.drop n) = true →
      containsL pat l = true := by
  intro l
  induction l with
  | nil =>
    intro n h
    unfold containsL
    simpa using h
  | cons c rest ih =>
    intro n h
    cases n with
    | zero =>
      rw [List.drop_zero] at h
      unfold containsL
      simp [h]
    | succ m =>
      have := ih m (by simpa using h)
      unfold containsL
      simp [this]

theorem containsL_exists {pat l : List Char} (h : containsL pat l = true) :
    ∃ n, pat.isPrefixOf (l.drop n) = true := by
  induction l with
  | nil => exact ⟨0, by simpa [containsL] using h⟩
  | cons c rest ih =>
    unfold containsL at h
    rw [Bool.or_eq_true] at h
    rcases h with h | h
    · exact ⟨0, by simpa using h⟩
    · obtain ⟨n, hn⟩ := ih h
      exact ⟨n + 1, by simpa using hn⟩

theorem containsL_append_left {pat a : List Char} (X : List Char)
    (h : containsL pat a = true) : containsL pat (a ++ X) = true := by
  obtain ⟨n, hn⟩ := containsL_exists h
  apply containsL_of_prefix_drop pat _ n
  by_cases hn' : n ≤ a.length
  · rw [List.drop_append_of_le_length hn']
    rw [List.isPrefixOf_iff_prefix] at hn ⊢
    exact hn.trans (List.prefix_append _ _)
  · have hdrop : a.drop n = [] := List.drop_of_length_le (by omega)
    rw [hdrop] at hn
    have hp : pat = [] := by
      cases pat with
      | nil => rfl
      | cons p pt => simp [List.isPrefixOf] at hn
    subst hp
    rw [List.isPrefixOf_iff_prefix]
    exact List.nil_prefix

theorem containsL_append_right {pat : List Char} (a : List Char)
    {b : List Char} (h : containsL pat b = true) :
    containsL pat (a ++ b) = true := by
  obtain ⟨n, hn⟩ := containsL_exists h
  apply containsL_of_prefix_drop pat _ (a.length + n)
  have : (a ++ b).drop (a.length + n) = b.drop n := by
    rw [← List.drop_drop, List.drop_left]
  rw [this]
  exact hn

theorem containsL_mid (pat a b : List Char) :
    containsL pat (a ++ (pat ++ b)) = true := by
  apply containsL_append_right a
  apply containsL_of_prefix_drop pat _ 0
  rw [List.drop_zero, List.isPrefixOf_iff_prefix]
  exact List.prefix_append _ _

theorem prefix_append_short {pat a X : List Char}
    (h : pat.isPrefixOf (a ++ X) = true) (hlen : a.length < pat.length) :
    a = pat.take a.length ∧ (pat.drop a.length).isPrefixOf X = true := by
  rw [List.isPrefixOf_iff_prefix, List.prefix_iff_eq_take] at h
  rw [List.take_append_eq_append_take,
    List.take_of_length_le (le_of_lt hlen)] at h
  constructor
  · have h2 := congrArg (fun l => List.take a.length l) h
    simp only at h2
    rw [List.take_left] at h2
    exact h2.symm
  · rw [List.isPrefixOf_iff_prefix]
    have hd : pat.drop a.length = X.take (pat.length - a.length) := by
      set k := pat.length - a.length with hk
      rw [h, List.drop_left]
    rw [hd]
    exact List.take_prefix _ _

theorem prefix_append_long {pat a X : List Char}
    (h : pat.isPrefixOf (a ++ X) = true) (hlen : pat.length ≤ a.length) :
    pat.isPrefixOf a = true := by
  rw [List.isPrefixOf_iff_prefix, List.prefix_iff_eq_take] at h ⊢
  rw [List.take_append_eq_append_take] at h
  have h0 : pat.length - a.length = 0 := by omega
  rw [h0] at h
  simpa using h

theorem ppd_prefix_of_attrPre {z : List Char}
    (h : ppdAttrPre.isPrefixOf z = true) : ppd.isPrefixOf z = true := by
  rw [List.isPrefixOf_iff_prefix] at h ⊢
  have h1 : ppd <+: ppdAttrPre :=
    List.isPrefixOf_iff_prefix.mp (by decide)
  exact h1.trans h

theorem ppd_drop_not_prefix_ltr :
    ∀ k, k < 28 → 1 ≤ k → (ppdAttrPre.drop k).isPrefixOf ltrRepl = false := by
  decide

theorem ppd_no_space : ∀ k, k < 28 → (ppdAttrPre.drop k).head? ≠ some ' ' := by
  decide

theorem ppdAttrPre_length : ppdAttrPre.length = 28 := by decide

theorem matchAttr_none_head {c : Char} (l : List Char) (hc : c ≠ 'p') :
    matchAttr (c :: l) = none := by
  unfold matchAttr
  rw [if_neg]
  intro h
  have hdec : ppdAttrPre = 'p' :: "age-progression-direction=\"".data := by
    decide
  rw [hdec] at h
  simp only [List.isPrefixOf, Bool.and_eq_true, beq_iff_eq] at h
  exact hc h.1.symm

theorem scanM_eq_of_some {m : List Char → Option (List Char × List Char)}
    (hm : Consuming m) {cs out tail : List Char}
    (h : m cs = some (out, tail)) : scanM m cs = out ++ scanM m tail := by
  cases cs with
  | nil =>
    have := hm _ _ _ h
    simp at this
  | cons c rest => rw [scanM_cons hm, h]

/-- A character copied by the attribute scan cannot start a match in the
output if it did not start one in the input: the substitution introduces no
new attribute matches to its left. -/
theorem matchAttr_none_scan {c : Char} {cs' : List Char}
    (h : matchAttr (c :: cs') = none) :
    matchAttr (c :: subAttr cs') = none := by
  by_cases hp : ppdAttrPre.isPrefixOf (c :: cs')
  · -- the prefix is present, so the match failed for lack of a closing
    -- quote: there is no quote at offset ≥ 28, hence no match inside `cs'`
    -- at all, and the scan is the identity.
    have hq : ∀ x ∈ (c :: cs').drop ppdAttrPre.length, (x != '"') = true := by
      unfold matchAttr at h
      rw [if_pos hp] at h
      cases hd : ((c :: cs').drop ppdAttrPre.length).dropWhile
          (fun c => c != '"') with
      | nil => exact List.dropWhile_eq_nil_iff.mp hd
      | cons d t => rw [hd] at h; cases h
    have hnone : ∀ n, matchAttr (cs'.drop n) = none := by
      intro n
      cases hmn : matchAttr (cs'.drop n) with
      | none => rfl
      | some pr =>
        exfalso
        obtain ⟨out, tail⟩ := pr
        obtain ⟨x, hx, rfl⟩ := matchAttr_some_quote hmn
        rw [List.drop_drop] at hx
        have h27 : cs'.drop (n + ppdAttrPre.length) =
            (cs'.drop 27).drop (n + 1) := by
          rw [List.drop_drop, ppdAttrPre_length]
          congr 1
          omega
        rw [h27] at hx
        have hx2 : '"' ∈ cs'.drop 27 := List.mem_of_mem_drop hx
        have hx3 : '"' ∈ (c :: cs').drop ppdAttrPre.length := by
          rw [ppdAttrPre_length]
          exact hx2
        have := hq '"' hx3
        simp at this
    have hid : subAttr cs' = cs' :=
      scanM_id_of_none matchAttr_consuming cs' hnone
    rw [hid]
    exact h
  · -- the prefix is absent in the input; a match in the output would have
    -- to use the first inserted replacement, which cannot align with the
    -- pattern.
    rcases scanM_decomp matchAttr_consuming cs' with
      hdec | ⟨p, rest, out, tail, hsplit, hm2, hsub⟩
    · unfold subAttr
      rw [hdec]
      exact h
    · obtain ⟨ho, hprest⟩ := matchAttr_some hm2
      subst ho
      unfold subAttr
      rw [hsub]
      cases hmm : matchAttr
          (c :: (p ++ ltrRepl ++ scanM matchAttr tail)) with
      | none => rfl
      | some pr2 =>
        exfalso
        obtain ⟨out2, tail2⟩ := pr2
        have hpre := (matchAttr_some hmm).2
        have hre : c :: (p ++ ltrRepl ++ scanM matchAttr tail) =
            (c :: p) ++ (ltrRepl ++ scanM matchAttr tail) := by
          simp
        rw [hre] at hpre
        by_cases hk : ppdAttrPre.length ≤ (c :: p).length
        · have hlong := prefix_append_long hpre hk
          apply hp
          have hext : ppdAttrPre.isPrefixOf ((c :: p) ++ rest) = true := by
            rw [List.isPrefixOf_iff_prefix] at hlong ⊢
            exact hlong.trans (List.prefix_append _ _)
          have hcs : c :: cs' = (c :: p) ++ rest := by
            rw [hsplit]
            rfl
          rw [hcs]
          exact hext
        · push_neg at hk
          obtain ⟨-, hpre2⟩ := prefix_append_short hpre hk
          have hlen2 : (ppdAttrPre.drop (c :: p).length).length ≤
              ltrRepl.length := by
            rw [List.length_drop, ppdAttrPre_length]
            have h33 : ltrRepl.length = 32 := by decide
            omega
          have hpre3 := prefix_append_long hpre2 hlen2
          have hk28 : (c :: p).length < 28 := by
            rw [ppdAttrPre_length] at hk
            exact hk
          have hk1 : 1 ≤ (c :: p).length := by simp
          have hfalse := ppd_drop_not_prefix_ltr (c :: p).length hk28 hk1
          rw [hpre3] at hfalse
          cases hfalse

theorem subAttr_idem_aux : ∀ (n : Nat) (cs : List Char), cs.length ≤ n →
    subAttr (subAttr cs) = subAttr cs := by
  intro n
  induction n with
  | zero =>
    intro cs h
    have hnil : cs = [] := by
      cases cs with
      | nil => rfl
      | cons c rest => simp at h
    subst hnil
    rfl
  | succ n ih =>
    intro cs hlen
    cases cs with
    | nil => rfl
    | cons c cs' =>
      cases hm : matchAttr (c :: cs') with
      | some pr =>
        obtain ⟨out, tail⟩ := pr
        obtain ⟨ho, -⟩ := matchAttr_some hm
        subst ho
        have htl := matchAttr_consuming _ _ _ hm
        have h1 : subAttr (c :: cs') = ltrRepl ++ subAttr tail :=
          scanM_eq_of_some matchAttr_consuming hm
        have h2 : subAttr (ltrRepl ++ subAttr tail) =
            ltrRepl ++ subAttr (subAttr tail) :=
          scanM_eq_of_some matchAttr_consuming (matchAttr_ltrRepl _)
        rw [h1, h2, ih tail ?_]
        simp only [List.length_cons] at hlen htl
        omega
      | none =>
        have h1 : subAttr (c :: cs') = c :: subAttr cs' := by
          have hc := scanM_cons matchAttr_consuming c cs'
          rw [hm] at hc
          exact hc
        have h2 : matchAttr (c :: subAttr cs') = none := matchAttr_none_scan hm
        have h3 : subAttr (c :: subAttr cs') = c :: subAttr (subAttr cs') := by
          have hc := scanM_cons matchAttr_consuming c (subAttr cs')
          rw [h2] at hc
          exact hc
        rw [h1, h3, ih cs' ?_]
        simp only [List.length_cons] at hlen
        omega

theorem subAttr_idem (cs : List Char) : subAttr (subAttr cs) = subAttr cs :=
  subAttr_idem_aux cs.length cs (le_refl _)

def spineLit : List Char := "<spine".data

/-- The text inserted by `r'\1 page-progression-direction="ltr"\2'` between
the two groups. -/
def spineIns : List Char := " page-progression-direction=\"ltr\"".data

theorem spineIns_eq : spineIns = ' ' :: ltrRepl := by decide

/-- The matcher of the spine insertion pass `(<spine[^>]*)(>)`: the literal
`<spine`, a greedy run of non-`>` characters (group 1 together with the
literal), and the closing `>`; the match is replaced by group 1, the
inserted attribute and the `>`. -/
def matchSpine (cs : List Char) : Option (List Char × List Char) :=
  if spineLit.isPrefixOf cs then
    match cs.dropWhile (fun c => c != '>') with
    | _ :: tail =>
      some (cs.takeWhile (fun c => c != '>') ++ spineIns ++ ['>'], tail)
    | [] => none
  else none

theorem matchSpine_consuming : Consuming matchSpine := by
  intro cs out tail h
  unfold matchSpine at h
  by_cases hp : spineLit.isPrefixOf cs
  · rw [if_pos hp] at h
    cases hd : cs.dropWhile (fun c => c != '>') with
    | nil => rw [hd] at h; cases h
    | cons d t =>
      rw [hd] at h
      cases h
      have h1 := length_dropWhile_le (fun c => c != '>') cs
      rw [hd] at h1
      simp only [List.length_cons] at h1
      have h2 : 0 < cs.length := by
        cases cs with
        | nil => simp [List.isPrefixOf, spineLit] at hp
        | cons a b => simp
      omega
  · rw [if_neg hp] at h; cases h

/-- The spine insertion pass. -/
def subSpine (cs : List Char) : List Char := scanM matchSpine cs

theorem matchSpine_some {cs out tail : List Char}
    (h : matchSpine cs = some (out, tail)) :
    out = cs.takeWhile (fun c => c != '>') ++ spineIns ++ ['>'] ∧
    cs = cs.takeWhile (fun c => c != '>') ++ '>' :: tail := by
  unfold matchSpine at h
  by_cases hp : spineLit.isPrefixOf cs
  · rw [if_pos hp] at h
    cases hd : cs.dropWhile (fun c => c != '>') with
    | nil => rw [hd] at h; cases h
    | cons d t =>
      rw [hd] at h
      cases h
      refine ⟨rfl, ?_⟩
      have hds : d = '>' := by
        have := head?_dropWhile_not (l := cs) (c := d) (by rw [hd]; rfl)
        simpa using this
      conv_lhs => rw [← List.takeWhile_append_dropWhile (p := fun c => c != '>') (l := cs)]
      rw [hd, hds]
  · rw [if_neg hp] at h; cases h

/-- `EpubProcessor._post_process_opf`'s textual transformation on the OPF
text (lines 344-357): the attribute substitution, then — only when the
substring `page-progression-direction` is still absent — the spine
insertion. -/
def post_process_opf_text (cs : List Char) : List Char :=
  let s1 := subAttr cs
  if containsL ppd s1 then s1 else subSpine s1

theorem matchAttr_none_of_not_contains {l : List Char}
    (h : containsL ppd l = false) : matchAttr l = none := by
  cases hmm : matchAttr l with
  | none => rfl
  | some pr =>
    exfalso
    obtain ⟨out, tail⟩ := pr
    have hpre := (matchAttr_some hmm).2
    have hppd := ppd_prefix_of_attrPre hpre
    have := containsL_of_prefix_drop ppd l 0 (by simpa using hppd)
    rw [this] at h
    cases h

theorem matchAttr_none_before_space {a W : List Char}
    (h : containsL ppd a = false) : matchAttr (a ++ ' ' :: W) = none := by
  cases hmm : matchAttr (a ++ ' ' :: W) with
  | none => rfl
  | some pr =>
    exfalso
    obtain ⟨out, tail⟩ := pr
    have hpre := (matchAttr_some hmm).2
    by_cases hk : ppdAttrPre.length ≤ a.length
    · have hlong := prefix_append_long hpre hk
      have hppd := ppd_prefix_of_attrPre hlong
      have hcon := containsL_of_prefix_drop ppd a 0 (by simpa using hppd)
      rw [hcon] at h
      cases h
    · push_neg at hk
      obtain ⟨-, hpre2⟩ := prefix_append_short hpre hk
      cases hdd : ppdAttrPre.drop a.length with
      | nil =>
        have hlen := congrArg List.length hdd
        rw [List.length_drop] at hlen
        simp only [List.length_nil] at hlen
        omega
      | cons d rest2 =>
        rw [hdd] at hpre2
        simp only [List.isPrefixOf, Bool.and_eq_true, beq_iff_eq] at hpre2
        have hh := ppd_no_space a.length (by
          rw [ppdAttrPre_length] at hk
          exact hk)
        rw [hdd] at hh
        simp only [List.head?_cons] at hh
        exact hh (by rw [hpre2.1])

/-- If the spine pass changed anything, the inserted attribute makes the
result contain the `page-progression-direction` substring. -/
theorem subSpine_contains {u : List Char} (hne : subSpine u ≠ u) :
    containsL ppd (subSpine u) = true := by
  rcases scanM_decomp matchSpine_consuming u with
    hdec | ⟨p, rest, out, tail, hsplit, hm2, hsub⟩
  · exact absurd hdec hne
  · obtain ⟨ho, -⟩ := matchSpine_some hm2
    subst ho
    unfold subSpine
    rw [hsub]
    have hre : p ++ (rest.takeWhile (fun c => c != '>') ++ spineIns ++ ['>']) ++
        scanM matchSpine tail =
        (p ++ rest.takeWhile (fun c => c != '>') ++ [' ']) ++
          (ppd ++ (('=' :: '"' :: 'l' :: 't' :: 'r' :: '"' :: []) ++
            '>' :: scanM matchSpine tail)) := by
      rw [spineIns_eq]
      have hltr : ltrRepl = ppd ++ ('=' :: '"' :: 'l' :: 't' :: 'r' :: '"' :: []) := by
        decide
      rw [hltr]
      simp
    rw [hre]
    exact containsL_mid _ _ _

theorem subAttr_subSpine_aux : ∀ (n : Nat) (u : List Char), u.length ≤ n →
    containsL ppd u = false → subAttr (subSpine u) = subSpine u := by
  intro n
  induction n with
  | zero =>
    intro u hlen _
    have hnil : u = [] := by
      cases u with
      | nil => rfl
      | cons c rest => simp at hlen
    subst hnil
    rfl
  | succ n ih =>
    intro u hlen hu
    cases u with
    | nil => rfl
    | cons c u' =>
      cases hms : matchSpine (c :: u') with
      | none =>
        have hsp1 : subSpine (c :: u') = c :: subSpine u' := by
          have hc1 := scanM_cons matchSpine_consuming c u'
          rw [hms] at hc1
          exact hc1
        have hu' : containsL ppd u' = false := by
          unfold containsL at hu
          rw [Bool.or_eq_false_iff] at hu
          exact hu.2
        have hna : matchAttr (c :: subSpine u') = none := by
          rcases scanM_decomp matchSpine_consuming u' with
            hdec | ⟨p, rest, out, tail, hsplit, hm2, hsub⟩
          · unfold subSpine
            rw [hdec]
            exact matchAttr_none_of_not_contains hu
          · obtain ⟨ho, hcs⟩ := matchSpine_some hm2
            subst ho
            unfold subSpine
            rw [hsub]
            have hre : c :: (p ++ (rest.takeWhile (fun x => x != '>') ++
                spineIns ++ ['>']) ++ scanM matchSpine tail) =
                (c :: (p ++ rest.takeWhile (fun x => x != '>'))) ++
                  (' ' :: (ltrRepl ++ ('>' :: scanM matchSpine tail))) := by
              rw [spineIns_eq]
              simp
            rw [hre]
            apply matchAttr_none_before_space
            cases hcc : containsL ppd
                (c :: (p ++ rest.takeWhile (fun x => x != '>'))) with
            | false => rfl
            | true =>
              exfalso
              have hext := containsL_append_left
                ('>' :: tail) hcc
              have hfull : (c :: (p ++ rest.takeWhile (fun x => x != '>'))) ++
                  '>' :: tail = c :: u' := by
                rw [hsplit]
                conv_rhs => rw [hcs]
                simp
              rw [hfull] at hext
              rw [hext] at hu
              cases hu
        have h3 : subAttr (c :: subSpine u') = c :: subAttr (subSpine u') := by
          have hc2 := scanM_cons matchAttr_consuming c (subSpine u')
          rw [hna] at hc2
          exact hc2
        rw [hsp1, h3, ih u' ?_ hu']
        simp only [List.length_cons] at hlen
        omega
      | some pr =>
        obtain ⟨out, tail⟩ := pr
        obtain ⟨ho, hcs⟩ := matchSpine_some hms
        subst ho
        have htl := matchSpine_consuming _ _ _ hms
        have hsp1 : subSpine (c :: u') =
            ((c :: u').takeWhile (fun x => x != '>') ++ spineIns ++ ['>']) ++
              subSpine tail :=
          scanM_eq_of_some matchSpine_consuming hms
        have hg : containsL ppd ((c :: u').takeWhile (fun x => x != '>')) =
            false := by
          cases hgg : containsL ppd ((c :: u').takeWhile (fun x => x != '>')) with
          | false => rfl
          | true =>
            exfalso
            have hext := containsL_append_left ('>' :: tail) hgg
            rw [← hcs] at hext
            rw [hext] at hu
            cases hu
        have hgd : ∀ j, containsL ppd
            (((c :: u').takeWhile (fun x => x != '>')).drop j) = false := by
          intro j
          cases hgj : containsL ppd
              (((c :: u').takeWhile (fun x => x != '>')).drop j) with
          | false => rfl
          | true =>
            exfalso
            have hext := containsL_append_right
              (((c :: u').takeWhile (fun x => x != '>')).take j) hgj
            rw [List.take_append_drop] at hext
            rw [hext] at hg
            cases hg
        have htail : containsL ppd tail = false := by
          cases htt : containsL ppd tail with
          | false => rfl
          | true =>
            exfalso
            have h1 := containsL_append_right ['>'] htt
            have h2 := containsL_append_right
              ((c :: u').takeWhile (fun x => x != '>'))
              (b := '>' :: tail) (by simpa using h1)
            rw [← hcs] at h2
            rw [h2] at hu
            cases hu
        have e1 : ((c :: u').takeWhile (fun x => x != '>') ++ spineIns ++ ['>']) ++
            subSpine tail =
            (c :: u').takeWhile (fun x => x != '>') ++
              (spineIns ++ ('>' :: subSpine tail)) := by
          simp
        have hA : subAttr ((c :: u').takeWhile (fun x => x != '>') ++
            (spineIns ++ ('>' :: subSpine tail))) =
            (c :: u').takeWhile (fun x => x != '>') ++
              subAttr (spineIns ++ ('>' :: subSpine tail)) := by
          apply scanM_copy matchAttr_consuming
          intro j _
          have e2 : ((c :: u').takeWhile (fun x => x != '>')).drop j ++
              (spineIns ++ ('>' :: subSpine tail)) =
              ((c :: u').takeWhile (fun x => x != '>')).drop j ++
                (' ' :: (ltrRepl ++ ('>' :: subSpine tail))) := by
            rw [spineIns_eq]
            simp
          rw [e2]
          exact matchAttr_none_before_space (hgd j)
        have hB : subAttr (spineIns ++ ('>' :: subSpine tail)) =
            ' ' :: (ltrRepl ++ subAttr ('>' :: subSpine tail)) := by
          have e3 : spineIns ++ ('>' :: subSpine tail) =
              ' ' :: (ltrRepl ++ ('>' :: subSpine tail)) := by
            rw [spineIns_eq]
            simp
          rw [e3]
          have hn1 : matchAttr (' ' :: (ltrRepl ++ ('>' :: subSpine tail))) =
              none := matchAttr_none_head _ (by decide)
          have hstep1 : subAttr (' ' :: (ltrRepl ++ ('>' :: subSpine tail))) =
              ' ' :: subAttr (ltrRepl ++ ('>' :: subSpine tail)) := by
            have hc3 := scanM_cons matchAttr_consuming ' '
              (ltrRepl ++ ('>' :: subSpine tail))
            rw [hn1] at hc3
            exact hc3
          rw [hstep1]
          have hc4 : subAttr (ltrRepl ++ ('>' :: subSpine tail)) =
              ltrRepl ++ subAttr ('>' :: subSpine tail) :=
            scanM_eq_of_some matchAttr_consuming
              (matchAttr_ltrRepl ('>' :: subSpine tail))
          rw [hc4]
        have hC : subAttr ('>' :: subSpine tail) =
            '>' :: subAttr (subSpine tail) := by
          have hn2 : matchAttr ('>' :: subSpine tail) = none :=
            matchAttr_none_head _ (by decide)
          have hc5 := scanM_cons matchAttr_consuming '>' (subSpine tail)
          rw [hn2] at hc5
          exact hc5
        have hI : subAttr (subSpine tail) = subSpine tail := by
          apply ih tail ?_ htail
          simp only [List.length_cons] at hlen htl
          omega
        rw [hsp1, e1, hA, hB, hC, hI]
        rw [spineIns_eq]
        simp

theorem subAttr_subSpine {u : List Char} (h : containsL ppd u = false) :
    subAttr (subSpine u) = subSpine u :=
  subAttr_subSpine_aux u.length u (le_refl _) h

/-- C7: the textual OPF patch — rewrite every double-quoted
`page-progression-direction` attribute value to `ltr`, and insert the
attribute into each `<spine …>` opening tag only when the substring is
absent altogether — is idempotent, and an already-present attribute is
tolerated: the insertion pass is skipped (no duplication), the rewrite
happening in place via the substitution pass alone. -/
theorem post_process_opf_spec :
    (∀ cs, post_process_opf_text (post_process_opf_text cs) =
      post_process_opf_text cs) ∧
    (∀ cs, containsL ppd (subAttr cs) = true →
      post_process_opf_text cs = subAttr cs) := by
  have hconj2 : ∀ cs, containsL ppd (subAttr cs) = true →
      post_process_opf_text cs = subAttr cs := by
    intro cs h
    simp only [post_process_opf_text]
    rw [if_pos h]
  refine ⟨?_, hconj2⟩
  intro cs
  by_cases hc : containsL ppd (subAttr cs) = true
  · rw [hconj2 cs hc]
    simp only [post_process_opf_text]
    rw [subAttr_idem, if_pos hc]
  · simp only [Bool.not_eq_true] at hc
    have hv : post_process_opf_text cs = subSpine (subAttr cs) := by
      simp only [post_process_opf_text]
      rw [if_neg (by simp [hc])]
    rw [hv]
    have hAv : subAttr (subSpine (subAttr cs)) = subSpine (subAttr cs) :=
      subAttr_subSpine hc
    simp only [post_process_opf_text]
    rw [hAv]
    by_cases hvu : subSpine (subAttr cs) = subAttr cs
    · rw [hvu, if_neg (by simp [hc])]
      exact hvu
    · rw [if_pos (subSpine_contains hvu)]

/-- The concrete OPF text of the C7 witness: a spine element that already
carries the attribute (with value `rtl`). -/
def cexOpf : List Char :=
  "<package><spine page-progression-direction=\"rtl\"><itemref/></spine></package>".data

/-- C7 (witness): on `cexOpf` the attribute is already present, so the patch
is the substitution pass alone (no insertion — not duplicated), and applying
the patch twice equals applying it once. -/
theorem post_process_opf_spec_witness :
    post_process_opf_text cexOpf = subAttr cexOpf ∧
    post_process_opf_text (post_process_opf_text cexOpf) =
      post_process_opf_text cexOpf := by
  constructor
  · exact post_process_opf_spec.2 cexOpf (by decide)
  · exact post_process_opf_spec.1 cexOpf

end Ebook
